import Mathlib

/-!
Shallow embedding of `src/nsc/pheno_nexus_search.py` (OBINexus Pheno Token
System with AVL Trie NexusSearch), together with proofs about the embedded
operations.  Mutable Python objects are rendered as pure values threaded
through the operations; Python `dict`s (which preserve insertion order and
have unique keys) are rendered as association lists; Python `str` values are
rendered as `List Char`; Python `float` scores are rendered as exact
rationals.
-/

/-- Token classification, from `class TokenType(Enum)`. -/
inductive TokenType where
  | EPSILON
  | FILE
  | DIRECTORY
  | CHARACTER
  | WORD
  | PATTERN
  | DOCUMENT
deriving DecidableEq

/-- Actor-model witness states, from `class WitnessState(Enum)`. -/
inductive WitnessState where
  | UNOBSERVED
  | OBSERVED
  | CHANGED
  | BUBBLING
deriving DecidableEq

/-- Pheno token, from `@dataclass class PhenoToken`.  The `Any`-typed
`token_value` only ever holds a string or `None` in the source, so it is
rendered as `Option (List Char)`. -/
structure PhenoToken where
  token_type : TokenType
  token_value : Option (List Char)
  token_memory_index : Nat
  witness_state : WitnessState := WitnessState.UNOBSERVED
deriving DecidableEq

/-- `PhenoToken.to_epsilon`: state machine minimization to the epsilon state. -/
def PhenoToken.to_epsilon (t : PhenoToken) : PhenoToken :=
  { token_type := TokenType.EPSILON
    token_value := none
    token_memory_index := t.token_memory_index
    witness_state := WitnessState.UNOBSERVED }

/-- AVL trie node, from `class AVLTrieNode`.  The `children` dict maps
strings (single characters for trie edges, `"_left"`/`"_right"` for the
rotation bookkeeping) to nodes. -/
inductive AVLTrieNode where
  | mk (char : Option (List Char))
       (children : List (List Char × AVLTrieNode))
       (is_end_of_word : Bool)
       (height : Nat)
       (balance_factor : Int)
       (witness_set_primary : List PhenoToken)
       (witness_set_secondary : List PhenoToken)
       (document_refs : List (String × Int))

def AVLTrieNode.char : AVLTrieNode → Option (List Char)
  | .mk c _ _ _ _ _ _ _ => c

def AVLTrieNode.children : AVLTrieNode → List (List Char × AVLTrieNode)
  | .mk _ ch _ _ _ _ _ _ => ch

def AVLTrieNode.is_end_of_word : AVLTrieNode → Bool
  | .mk _ _ e _ _ _ _ _ => e

def AVLTrieNode.height : AVLTrieNode → Nat
  | .mk _ _ _ h _ _ _ _ => h

def AVLTrieNode.balance_factor : AVLTrieNode → Int
  | .mk _ _ _ _ b _ _ _ => b

def AVLTrieNode.witness_set_primary : AVLTrieNode → List PhenoToken
  | .mk _ _ _ _ _ wp _ _ => wp

def AVLTrieNode.witness_set_secondary : AVLTrieNode → List PhenoToken
  | .mk _ _ _ _ _ _ ws _ => ws

def AVLTrieNode.document_refs : AVLTrieNode → List (String × Int)
  | .mk _ _ _ _ _ _ _ dr => dr

/-- The key of the bookkeeping left branch, the Python string `"_left"`. -/
def leftKey : List Char := ['_', 'l', 'e', 'f', 't']

/-- The key of the bookkeeping right branch, the Python string `"_right"`. -/
def rightKey : List Char := ['_', 'r', 'i', 'g', 'h', 't']

/-- `AVLTrieNode()`: a fresh node with all fields at their defaults. -/
def defaultNode : AVLTrieNode := .mk none [] false 1 0 [] [] []

/-- `AVLTrieNode(char)`: a fresh node labelled with a character. -/
def newNode (c : List Char) : AVLTrieNode := .mk (some c) [] false 1 0 [] [] []

/-- `d.get(k)` on an insertion-ordered dict rendered as an association list. -/
def lookupEntries (k : List Char) :
    List (List Char × AVLTrieNode) → Option AVLTrieNode
  | [] => none
  | (k', v) :: t => if k' = k then some v else lookupEntries k t

/-- `d[k] = v` on an insertion-ordered dict: replace in place if the key is
present, append otherwise. -/
def setEntries (k : List Char) (v : AVLTrieNode) :
    List (List Char × AVLTrieNode) → List (List Char × AVLTrieNode)
  | [] => [(k, v)]
  | (k', v') :: t => if k' = k then (k, v) :: t else (k', v') :: setEntries k v t

/-- `del d[k]` on an insertion-ordered dict. -/
def removeEntries (k : List Char) :
    List (List Char × AVLTrieNode) → List (List Char × AVLTrieNode)
  | [] => []
  | (k', v') :: t => if k' = k then t else (k', v') :: removeEntries k t

def AVLTrieNode.lookupChild (n : AVLTrieNode) (k : List Char) : Option AVLTrieNode :=
  lookupEntries k n.children

def AVLTrieNode.setChild (n : AVLTrieNode) (k : List Char) (v : AVLTrieNode) : AVLTrieNode :=
  match n with
  | .mk c ch e h b wp ws dr => .mk c (setEntries k v ch) e h b wp ws dr

def AVLTrieNode.removeChild (n : AVLTrieNode) (k : List Char) : AVLTrieNode :=
  match n with
  | .mk c ch e h b wp ws dr => .mk c (removeEntries k ch) e h b wp ws dr

def AVLTrieNode.setHeight (n : AVLTrieNode) (h' : Nat) : AVLTrieNode :=
  match n with
  | .mk c ch e _ b wp ws dr => .mk c ch e h' b wp ws dr

def AVLTrieNode.setBalance (n : AVLTrieNode) (b' : Int) : AVLTrieNode :=
  match n with
  | .mk c ch e h _ wp ws dr => .mk c ch e h b' wp ws dr

/-- `set.add` on a witness set (identity = dataclass equality). -/
def addTok (t : PhenoToken) (l : List PhenoToken) : List PhenoToken :=
  if t ∈ l then l else l ++ [t]

/-- The two `add` calls performed on the node descended into by one loop
iteration of `insert_word` (dual witness pattern). -/
def AVLTrieNode.addWitness (n : AVLTrieNode) (charTok wordTok : PhenoToken) : AVLTrieNode :=
  match n with
  | .mk c ch e h b wp ws dr => .mk c ch e h b (addTok charTok wp) (addTok wordTok ws) dr

/-- `current.is_end_of_word = True; current.document_refs.append(...)`. -/
def AVLTrieNode.markEnd (n : AVLTrieNode) (doc_id : String) (position : Int) : AVLTrieNode :=
  match n with
  | .mk c ch _ h b wp ws dr => .mk c ch true h b wp ws (dr ++ [(doc_id, position)])

/-- `AVLTrieNode.get_height`: `self` is always truthy, so this returns the
`height` field. -/
def AVLTrieNode.get_height (n : AVLTrieNode) : Nat := n.height

/-- `AVLTrieNode.update_height`: heights of the `_left`/`_right` children
(with a fresh default node, of height 1, when the key is absent). -/
def update_height (n : AVLTrieNode) : AVLTrieNode :=
  n.setHeight (1 + max ((n.lookupChild leftKey).getD defaultNode).get_height
                       ((n.lookupChild rightKey).getD defaultNode).get_height)

/-- `AVLTrieNode.update_balance_factor`. -/
def update_balance_factor (n : AVLTrieNode) : AVLTrieNode :=
  n.setBalance ((((n.lookupChild leftKey).getD defaultNode).get_height : Int)
                - (((n.lookupChild rightKey).getD defaultNode).get_height : Int))

/-- `NexusSearchAVL._rotate_right`.  The source line
`node.children['_left'] = left_child.children.get('_right')` can store
`None` in the dict; that is rendered as removing the key.  This branch is
unreachable from the exported operations (the balance factor is always 0,
see `balance_node_no_reserved`). -/
def rotate_right (node : AVLTrieNode) : AVLTrieNode :=
  match node.lookupChild leftKey with
  | none => node
  | some left_child =>
      let node1 :=
        match left_child.lookupChild rightKey with
        | some x => node.setChild leftKey x
        | none => node.removeChild leftKey
      let node2 := update_height node1
      let lc1 := left_child.setChild rightKey node2
      update_height lc1

/-- `NexusSearchAVL._rotate_left` (mirror image of `rotate_right`). -/
def rotate_left (node : AVLTrieNode) : AVLTrieNode :=
  match node.lookupChild rightKey with
  | none => node
  | some right_child =>
      let node1 :=
        match right_child.lookupChild leftKey with
        | some x => node.setChild rightKey x
        | none => node.removeChild rightKey
      let node2 := update_height node1
      let rc1 := right_child.setChild leftKey node2
      update_height rc1

/-- `NexusSearchAVL._balance_node`. -/
def balance_node (node : AVLTrieNode) : AVLTrieNode :=
  let n := update_balance_factor (update_height node)
  if 1 < n.balance_factor then
    match n.lookupChild leftKey with
    | some left_child =>
        if 0 ≤ left_child.balance_factor then rotate_right n
        else rotate_right (n.setChild leftKey (rotate_left left_child))
    | none => n
  else if n.balance_factor < -1 then
    match n.lookupChild rightKey with
    | some right_child =>
        if right_child.balance_factor ≤ 0 then rotate_left n
        else rotate_left (n.setChild rightKey (rotate_right right_child))
    | none => n
  else n

/-- One event record of the actor event queue (`_bubble_event`).  The
`timestamp` is drawn from the memory allocator. -/
structure ActorEvent where
  token : PhenoToken
  old_state : WitnessState
  new_state : WitnessState
  timestamp : Nat
deriving DecidableEq

/-- The mutable state of one `NexusSearchAVL` instance. -/
structure NexusState where
  root : AVLTrieNode
  memory_allocator : Nat
  actor_event_queue : List ActorEvent

/-- `NexusSearchAVL()`: fresh index. -/
def freshIndex : NexusState := ⟨defaultNode, 0, []⟩

/-- The character-by-character insertion loop of `insert_word`: descend
(creating the child when absent), add the two witness tokens, rebalance,
and mark the final node as end of word.  The allocator counter is threaded
through; one character token is allocated per character. -/
def insertLoop (doc_id : String) (position : Int) (wordTok : PhenoToken) :
    AVLTrieNode → List Char → Nat → AVLTrieNode × Nat
  | cur, [], alloc => (cur.markEnd doc_id position, alloc)
  | cur, c :: rest, alloc =>
      let char_token : PhenoToken :=
        ⟨TokenType.CHARACTER, some [c], alloc + 1, WitnessState.OBSERVED⟩
      let child0 := (cur.lookupChild [c]).getD (newNode [c])
      let child1 := child0.addWitness char_token wordTok
      let child2 := balance_node child1
      let next := insertLoop doc_id position wordTok child2 rest (alloc + 1)
      (cur.setChild [c] next.1, next.2)

/-- `NexusSearchAVL.insert_word`.  For the empty word a standalone Epsilon
token with memory slot 0 is returned and the state is untouched.  Otherwise
one Word token is allocated, the trie is descended, and `_bubble_event`
appends exactly one event whose timestamp is a further allocator value; the
word token ends in state CHANGED (the event record holds the same shared
token object). -/
def insert_word (s : NexusState) (word : List Char) (doc_id : String)
    (position : Int) : PhenoToken × NexusState :=
  if word = [] then
    (⟨TokenType.EPSILON, none, 0, WitnessState.UNOBSERVED⟩, s)
  else
    let token : PhenoToken :=
      ⟨TokenType.WORD, some word, s.memory_allocator + 1, WitnessState.OBSERVED⟩
    let ins := insertLoop doc_id position token s.root word (s.memory_allocator + 1)
    let timestamp := ins.2 + 1
    let token' : PhenoToken :=
      ⟨TokenType.WORD, some word, s.memory_allocator + 1, WitnessState.CHANGED⟩
    let event : ActorEvent := ⟨token', WitnessState.OBSERVED, WitnessState.CHANGED, timestamp⟩
    (token', ⟨ins.1, timestamp, s.actor_event_queue ++ [event]⟩)

/-- The drain loop of `NexusSearchAVL.process_event_queue` (the print call
is I/O and has no effect on the state). -/
def processLoop : List ActorEvent → List ActorEvent → List ActorEvent
  | [], processed => processed
  | e :: q, processed => processLoop q (processed ++ [e])

/-- `NexusSearchAVL.process_event_queue`: pops every queued event in FIFO
order and returns them; the queue is empty afterwards. -/
def process_event_queue (s : NexusState) : List ActorEvent × NexusState :=
  (processLoop s.actor_event_queue [], ⟨s.root, s.memory_allocator, []⟩)

/-- Inner loop of `NexusSearchAVL._levenshtein_distance`: one row update.
`prev` is the remaining part of `previous_row` (so that `previous_row[j]`
and `previous_row[j+1]` are its first two entries) and `cur` is the last
entry already appended to `current_row`. -/
def levLoop (c1 : Char) : List Char → List Nat → Nat → List Nat
  | [], _, _ => []
  | c2 :: s2, p0 :: p1 :: ps, cur =>
      let v := min (min (p1 + 1) (cur + 1)) (p0 + (if c1 ≠ c2 then 1 else 0))
      v :: levLoop c1 s2 (p1 :: ps) v
  | _ :: _, _, _ => []

/-- Outer loop of `_levenshtein_distance`: one iteration per character of
`s1`, threading `previous_row` and the row index. -/
def levOuter (s2 : List Char) : List Char → List Nat → Nat → List Nat
  | [], prev, _ => prev
  | c1 :: s1, prev, i => levOuter s2 s1 ((i + 1) :: levLoop c1 s2 prev (i + 1)) (i + 1)

/-- `_levenshtein_distance` after the argument swap: the rolling-row dynamic
program, returning `previous_row[-1]`. -/
def levCore (s1 s2 : List Char) : Nat :=
  if s2.length = 0 then s1.length
  else (levOuter s2 s1 (List.range (s2.length + 1)) 0).getLastD 0

/-- `NexusSearchAVL._levenshtein_distance`.  The source swaps the arguments
(by one recursive call) when `len(s1) < len(s2)`; the swap is rendered
directly since the recursion depth is at most one. -/
def levenshtein_distance (s1 s2 : List Char) : Nat :=
  if s1.length < s2.length then levCore s2 s1 else levCore s1 s2

/-- Python `str.startswith`: `startsWith w p` iff `p` is a prefix of `w`. -/
def startsWith : List Char → List Char → Bool
  | _, [] => true
  | [], _ :: _ => false
  | a :: w, b :: p => a == b && startsWith w p

/-- Python `in` on strings: `containsSub needle hay` iff `needle` occurs in
`hay` as a contiguous substring. -/
def containsSub (needle : List Char) : List Char → Bool
  | [] => needle.isEmpty
  | c :: t => startsWith (c :: t) needle || containsSub needle t

/-- `NexusSearchAVL._calculate_score`.  Python float arithmetic is rendered
as exact rational arithmetic (the float literals 0.9, 0.7, 0.1 become the
corresponding rationals). -/
def calculate_score (pattern word : List Char) (depth : Nat) : ℚ :=
  if pattern = [] ∨ word = [] then 0
  else
    let pattern_lower := pattern.map Char.toLower
    let word_lower := word.map Char.toLower
    if pattern_lower = word_lower then 1
    else if startsWith word_lower pattern_lower then mkRat 9 10
    else if containsSub pattern_lower word_lower then mkRat 7 10
    else
      let edit_distance := levenshtein_distance pattern_lower word_lower
      let max_len := max pattern_lower.length word_lower.length
      let similarity := 1 - (edit_distance : ℚ) / (max_len : ℚ)
      let depth_penalty := 1 / (1 + (depth : ℚ) * mkRat 1 10)
      similarity * depth_penalty

/-- The child items visited by a search at a node: all children except the
reserved rotation keys, in dict iteration (= insertion) order, paired with
the extended word and depth. -/
def childItems (n : AVLTrieNode) (current_word : List Char) (depth : Nat) :
    List (AVLTrieNode × List Char × Nat) :=
  (n.children.filter (fun e => decide (¬(e.1 = leftKey ∨ e.1 = rightKey)))).map
    (fun e => (e.2, current_word ++ e.1, depth + 1))

theorem sum_filter_sizeOf_lt (p : List Char × AVLTrieNode → Bool) :
    ∀ l : List (List Char × AVLTrieNode),
      (((l.filter p).map (fun e => sizeOf e.2)).sum) < sizeOf l := by
  intro l
  induction l with
  | nil => simp [List.filter]
  | cons e t ih =>
      obtain ⟨k, v⟩ := e
      by_cases h : p (k, v) = true <;>
        simp [List.filter, h, List.sum_cons] <;> omega

theorem childItems_sizes_lt (n : AVLTrieNode) (w : List Char) (d : Nat) :
    ((childItems n w d).map (fun t => sizeOf t.1)).sum < sizeOf n := by
  obtain ⟨c, ch, e, h, b, wp, ws, dr⟩ := n
  have hlt := sum_filter_sizeOf_lt
    (fun e => decide (¬(e.1 = leftKey ∨ e.1 = rightKey))) ch
  simp only [childItems, AVLTrieNode.children, List.map_map]
  simp only [AVLTrieNode.mk.sizeOf_spec]
  have : ((List.filter (fun e => decide (¬(e.1 = leftKey ∨ e.1 = rightKey))) ch).map
      ((fun t : AVLTrieNode × List Char × Nat => sizeOf t.1) ∘
        (fun e : List Char × AVLTrieNode => (e.2, w ++ e.1, d + 1)))).sum =
      ((List.filter (fun e => decide (¬(e.1 = leftKey ∨ e.1 = rightKey))) ch).map
        (fun e => sizeOf e.2)).sum := by
    congr 1
  omega

/-- The while loop of `NexusSearchAVL.search_bfs`.  The queue carries
`(node, current_word, depth)`; the loop stops when the queue is empty or
`max_results` results have been collected; an end-of-word node with a
non-empty word is scored and accepted when the score is above 0.3. -/
def bfsLoop (pattern : List Char) (max_results : Nat) :
    List (AVLTrieNode × List Char × Nat) → List (List Char × ℚ) →
      List (List Char × ℚ)
  | [], results => results
  | (node, current_word, depth) :: rest, results =>
      if max_results ≤ results.length then results
      else
        let results' :=
          if node.is_end_of_word = true ∧ current_word ≠ [] then
            let score := calculate_score pattern current_word depth
            if mkRat 3 10 < score then results ++ [(current_word, score)]
            else results
          else results
        bfsLoop pattern max_results (rest ++ childItems node current_word depth) results'
termination_by queue _ => (queue.map (fun t => sizeOf t.1)).sum
decreasing_by
  simp only [List.map_append, List.sum_append, List.map_cons, List.sum_cons]
  have := childItems_sizes_lt node current_word depth
  omega

instance decStableRel : DecidableRel (fun a b : List Char × ℚ => b.2 ≤ a.2) :=
  fun a b => inferInstanceAs (Decidable (b.2 ≤ a.2))

/-- `results.sort(key=lambda x: x[1], reverse=True)`: Python's sort is
stable, and `reverse=True` keeps ties in their original order, so this is
the stable insertion sort by descending score. -/
def sortResults (results : List (List Char × ℚ)) : List (List Char × ℚ) :=
  List.insertionSort (fun a b => b.2 ≤ a.2) results

/-- `NexusSearchAVL.search_bfs`. -/
def search_bfs (s : NexusState) (pattern : List Char) (max_results : Nat) :
    List (List Char × ℚ) :=
  if pattern = [] then []
  else sortResults (bfsLoop pattern max_results [(s.root, [], 0)] [])

mutual
/-- `dfs_helper` inside `NexusSearchAVL.search_dfs`: preorder traversal with
the same accept rule as the breadth-first search and an early stop once
`max_results` results are collected. -/
def dfsHelper (pattern : List Char) (max_results : Nat) :
    AVLTrieNode → List Char → Nat → List (List Char × ℚ) → List (List Char × ℚ)
  | .mk _c ch e _h _b _wp _ws _dr, current_word, depth, results =>
      if max_results ≤ results.length then results
      else
        let results' :=
          if e = true ∧ current_word ≠ [] then
            let score := calculate_score pattern current_word depth
            if mkRat 3 10 < score then results ++ [(current_word, score)]
            else results
          else results
        dfsChildren pattern max_results ch current_word depth results'

/-- The `for char, child in node.children.items()` loop of `dfs_helper`,
skipping the reserved rotation keys. -/
def dfsChildren (pattern : List Char) (max_results : Nat) :
    List (List Char × AVLTrieNode) → List Char → Nat → List (List Char × ℚ) →
      List (List Char × ℚ)
  | [], _, _, results => results
  | (k, child) :: rest, current_word, depth, results =>
      if k = leftKey ∨ k = rightKey then
        dfsChildren pattern max_results rest current_word depth results
      else
        dfsChildren pattern max_results rest current_word depth
          (dfsHelper pattern max_results child (current_word ++ k) (depth + 1) results)
end

/-- `NexusSearchAVL.search_dfs`. -/
def search_dfs (s : NexusState) (pattern : List Char) (max_results : Nat) :
    List (List Char × ℚ) :=
  if pattern = [] then []
  else sortResults (dfsHelper pattern max_results s.root [] 0 [])


/-- C9: `minimize` (`PhenoToken.to_epsilon`) returns a token of kind
Epsilon with absent value, the same memory slot as the input, and witness
state Unobserved; the input token is unchanged, the operation being a pure
function of its input. -/
theorem C9_to_epsilon_spec (t : PhenoToken) :
    (t.to_epsilon).token_type = TokenType.EPSILON ∧
    (t.to_epsilon).token_value = none ∧
    (t.to_epsilon).token_memory_index = t.token_memory_index ∧
    (t.to_epsilon).witness_state = WitnessState.UNOBSERVED :=
  ⟨rfl, rfl, rfl, rfl⟩

/-- C7: inserting the empty word returns an Epsilon token with memory slot
0 and leaves the whole index state (trie, allocator, event queue)
unchanged. -/
theorem C7_insert_empty_word (s : NexusState) (d : String) (p : Int) :
    insert_word s [] d p =
      (⟨TokenType.EPSILON, none, 0, WitnessState.UNOBSERVED⟩, s) := rfl

theorem processLoop_eq (q acc : List ActorEvent) : processLoop q acc = acc ++ q := by
  induction q generalizing acc with
  | nil => simp [processLoop]
  | cons e t ih => simp [processLoop, ih]

/-- C6: draining returns all queued events in FIFO (insertion) order,
leaves the queue empty, and an immediate second drain returns the empty
sequence. -/
theorem C6_drain_fifo (s : NexusState) :
    (process_event_queue s).1 = s.actor_event_queue ∧
    (process_event_queue s).2.actor_event_queue = [] ∧
    (process_event_queue (process_event_queue s).2).1 = [] := by
  refine ⟨?_, rfl, rfl⟩
  simp [process_event_queue, processLoop_eq]

/-- C3 counterexample: inserting the empty word appends no event, so the
queue length after the call is not the length before plus one. -/
theorem C3_counterexample :
    ¬ ((insert_word freshIndex [] "d" 0).2.actor_event_queue.length
        = freshIndex.actor_event_queue.length + 1) := by decide

/-- C3 amended: every `insert` call with a non-empty word appends exactly
one transition event to the event queue (the empty-word call appends
none, see the counterexample). -/
theorem C3_amended (s : NexusState) (w : List Char) (d : String) (p : Int)
    (h : w ≠ []) :
    ∃ e, (insert_word s w d p).2.actor_event_queue = s.actor_event_queue ++ [e] := by
  unfold insert_word
  rw [if_neg h]
  exact ⟨_, rfl⟩

theorem C3_amended_witness :
    (['a'] : List Char) ≠ [] ∧
    ∃ e, (insert_word freshIndex ['a'] "d" 0).2.actor_event_queue
        = freshIndex.actor_event_queue ++ [e] :=
  ⟨by decide, C3_amended freshIndex ['a'] "d" 0 (by decide)⟩

/-- C4 counterexample: after inserting the one-letter word "a" into a
fresh index, the node reached from the root by the edge labelled "a" is a
leaf (it has no children) yet its height field is 2, not 1. -/
theorem C4_counterexample :
    (((insert_word freshIndex ['a'] "d" 0).2.root.lookupChild ['a']).getD
        defaultNode).children.length = 0 ∧
    ¬ ((((insert_word freshIndex ['a'] "d" 0).2.root.lookupChild ['a']).getD
        defaultNode).height = 1) := by decide

/-- The Levenshtein distance with unit insertion/deletion/substitution
costs, by the classic recurrence on first characters. -/
def levL : List Char → List Char → Nat
  | [], t => t.length
  | a :: s, [] => (a :: s).length
  | a :: s, b :: t =>
      min (min (levL s (b :: t) + 1) (levL (a :: s) t + 1))
          (levL s t + (if a ≠ b then 1 else 0))
termination_by s t => s.length + t.length
decreasing_by all_goals (simp; try omega)

/-- The classic Levenshtein distance, oriented on prefixes (the form the
dynamic program of `_levenshtein_distance` computes): it satisfies the
textbook base cases and last-character recurrence, see `lev_nil_left`,
`lev_nil_right` and `lev_snoc`. -/
def lev (s t : List Char) : Nat := levL s.reverse t.reverse

theorem levL_nil_right : ∀ s : List Char, levL s [] = s.length := by
  intro s; cases s <;> simp [levL]

theorem lev_nil_left (t : List Char) : lev [] t = t.length := by
  simp [lev, levL]

theorem lev_nil_right (s : List Char) : lev s [] = s.length := by
  simp [lev, levL_nil_right]

/-- The classic last-character recurrence for the Levenshtein distance. -/
theorem lev_snoc (p q : List Char) (a b : Char) :
    lev (p ++ [a]) (q ++ [b]) =
      min (min (lev p (q ++ [b]) + 1) (lev (p ++ [a]) q + 1))
          (lev p q + (if a ≠ b then 1 else 0)) := by
  simp only [lev, List.reverse_append, List.reverse_cons, List.reverse_nil,
    List.nil_append, List.singleton_append]
  rw [levL]

theorem levL_symm_aux : ∀ n, ∀ s t : List Char,
    s.length + t.length ≤ n → levL s t = levL t s := by
  intro n
  induction n with
  | zero =>
      intro s t h
      have hs : s = [] := by
        cases s with
        | nil => rfl
        | cons a s => simp at h
      have ht : t = [] := by
        cases t with
        | nil => rfl
        | cons a t => simp only [List.length_cons] at h; omega
      subst hs; subst ht; rfl
  | succ n ih =>
      intro s t h
      match s, t with
      | [], t => rw [levL_nil_right]; cases t <;> simp [levL]
      | a :: s, [] => rw [levL_nil_right]; simp [levL]
      | a :: s, b :: t =>
          rw [levL, levL]
          have h1 : levL s (b :: t) = levL (b :: t) s := by
            apply ih; simp only [List.length_cons] at h ⊢; omega
          have h2 : levL (a :: s) t = levL t (a :: s) := by
            apply ih; simp only [List.length_cons] at h ⊢; omega
          have h3 : levL s t = levL t s := by
            apply ih; simp only [List.length_cons] at h ⊢; omega
          have hd : (if a ≠ b then 1 else 0) = (if b ≠ a then 1 else 0) := by
            by_cases hab : a = b <;> simp [hab, Ne, eq_comm]
          rw [h1, h2, h3, hd]
          omega

theorem levL_symm (s t : List Char) : levL s t = levL t s :=
  levL_symm_aux (s.length + t.length) s t le_rfl

theorem lev_symm (s t : List Char) : lev s t = lev t s := levL_symm _ _

theorem levL_self : ∀ s : List Char, levL s s = 0 := by
  intro s
  induction s with
  | nil => rw [levL_nil_right]; rfl
  | cons a s ih =>
      rw [levL]
      simp only [ne_eq, not_true_eq_false, if_neg, ite_false, ite_true]
      omega

theorem lev_self (s : List Char) : lev s s = 0 := levL_self s.reverse

/-- The row of prefix distances the dynamic program maintains: entry `j` is
the distance between `p` and `qd ++ rem.take j`. -/
def specRow (p qd rem : List Char) : List Nat :=
  (List.range (rem.length + 1)).map (fun j => lev p (qd ++ rem.take j))

theorem specRow_nil (p qd : List Char) : specRow p qd [] = [lev p qd] := by
  simp [specRow]

theorem specRow_cons (p qd : List Char) (c : Char) (rem : List Char) :
    specRow p qd (c :: rem) = lev p qd :: specRow p (qd ++ [c]) rem := by
  unfold specRow
  rw [List.length_cons, List.range_succ_eq_map, List.map_cons, List.map_map]
  congr 1
  · simp only [List.take_zero, List.append_nil]
  · apply List.map_congr_left
    intro j _
    simp only [Function.comp_apply, List.take_succ_cons, List.append_assoc,
      List.singleton_append]

theorem specRow_head (p qd rem : List Char) :
    specRow p qd rem = lev p qd :: (specRow p qd rem).tail := by
  cases rem <;> simp [specRow_nil, specRow_cons]

theorem levLoop_spec (c1 : Char) (p : List Char) :
    ∀ (rem qd : List Char),
      levLoop c1 rem (specRow p qd rem) (lev (p ++ [c1]) qd)
        = (specRow (p ++ [c1]) qd rem).tail := by
  intro rem
  induction rem with
  | nil => intro qd; simp [specRow_nil, levLoop]
  | cons c2 rem ih =>
      intro qd
      rw [specRow_cons, specRow_head p (qd ++ [c2]) rem, levLoop]
      rw [← specRow_head p (qd ++ [c2]) rem]
      rw [← lev_snoc p qd c1 c2]
      rw [ih (qd ++ [c2])]
      rw [specRow_cons (p ++ [c1]) qd c2 rem, List.tail_cons]
      exact (specRow_head _ _ _).symm

theorem levOuter_spec (s2 : List Char) :
    ∀ (rem1 p : List Char),
      levOuter s2 rem1 (specRow p [] s2) p.length = specRow (p ++ rem1) [] s2 := by
  intro rem1
  induction rem1 with
  | nil => intro p; simp [levOuter]
  | cons c1 rem1 ih =>
      intro p
      rw [levOuter]
      have hlen : lev (p ++ [c1]) [] = p.length + 1 := by
        rw [lev_nil_right]; simp
      have hrow : (p.length + 1) :: levLoop c1 s2 (specRow p [] s2) (p.length + 1)
          = specRow (p ++ [c1]) [] s2 := by
        rw [← hlen, levLoop_spec c1 p s2 []]
        exact (specRow_head _ _ _).symm
      rw [hrow]
      have h2 := ih (p ++ [c1])
      simp only [List.length_append, List.length_cons, List.length_nil,
        List.append_assoc, List.singleton_append] at h2 ⊢
      exact h2

theorem initial_row (s2 : List Char) :
    List.range (s2.length + 1) = specRow [] [] s2 := by
  unfold specRow
  have hpt : ∀ j ∈ List.range (s2.length + 1),
      lev [] ([] ++ List.take j s2) = j := by
    intro j hj
    rw [List.mem_range] at hj
    rw [List.nil_append, lev_nil_left, List.length_take]
    omega
  exact ((List.map_congr_left hpt).trans (List.map_id' _)).symm

theorem specRow_getLast (s1 s2 : List Char) :
    (specRow s1 [] s2).getLastD 0 = lev s1 s2 := by
  unfold specRow
  rw [List.range_succ, List.map_append]
  simp [List.getLastD_concat, List.take_length]

theorem levCore_eq (s1 s2 : List Char) : levCore s1 s2 = lev s1 s2 := by
  unfold levCore
  by_cases h : s2.length = 0
  · rw [if_pos h, List.length_eq_zero.mp h, lev_nil_right]
  · rw [if_neg h, initial_row]
    have h0 := levOuter_spec s2 s1 []
    simp only [List.length_nil, List.nil_append] at h0
    rw [h0, specRow_getLast]

/-- The source function agrees with the classic Levenshtein distance on
every pair of strings. -/
theorem levenshtein_eq_lev (s1 s2 : List Char) :
    levenshtein_distance s1 s2 = lev s1 s2 := by
  unfold levenshtein_distance
  by_cases h : s1.length < s2.length
  · rw [if_pos h, levCore_eq]; exact levL_symm _ _
  · rw [if_neg h, levCore_eq]

/-- C5: `_levenshtein_distance` computes the classic Levenshtein distance
with unit insertion/deletion/substitution costs (`lev`, characterized by
`lev_nil_left`, `lev_nil_right` and the textbook recurrence `lev_snoc`);
in particular the distance between "kitten" and "sitting" is 3, the
distance between "cat" and "hat" is 1, and the distance between any string
and itself is 0. -/
theorem C5_levenshtein :
    (∀ s1 s2 : List Char, levenshtein_distance s1 s2 = lev s1 s2) ∧
    levenshtein_distance "kitten".toList "sitting".toList = 3 ∧
    levenshtein_distance "cat".toList "hat".toList = 1 ∧
    (∀ s : List Char, levenshtein_distance s s = 0) :=
  ⟨levenshtein_eq_lev, by decide, by decide,
   fun s => by rw [levenshtein_eq_lev]; exact lev_self s⟩

@[simp] theorem children_markEnd (n : AVLTrieNode) (d : String) (p : Int) :
    (n.markEnd d p).children = n.children := by cases n; rfl

@[simp] theorem height_markEnd (n : AVLTrieNode) (d : String) (p : Int) :
    (n.markEnd d p).height = n.height := by cases n; rfl

@[simp] theorem isEnd_markEnd (n : AVLTrieNode) (d : String) (p : Int) :
    (n.markEnd d p).is_end_of_word = true := by cases n; rfl

@[simp] theorem children_addWitness (n : AVLTrieNode) (ct wt : PhenoToken) :
    (n.addWitness ct wt).children = n.children := by cases n; rfl

@[simp] theorem height_addWitness (n : AVLTrieNode) (ct wt : PhenoToken) :
    (n.addWitness ct wt).height = n.height := by cases n; rfl

@[simp] theorem isEnd_addWitness (n : AVLTrieNode) (ct wt : PhenoToken) :
    (n.addWitness ct wt).is_end_of_word = n.is_end_of_word := by cases n; rfl

@[simp] theorem children_setHeight (n : AVLTrieNode) (x : Nat) :
    (n.setHeight x).children = n.children := by cases n; rfl

@[simp] theorem height_setHeight (n : AVLTrieNode) (x : Nat) :
    (n.setHeight x).height = x := by cases n; rfl

@[simp] theorem isEnd_setHeight (n : AVLTrieNode) (x : Nat) :
    (n.setHeight x).is_end_of_word = n.is_end_of_word := by cases n; rfl

@[simp] theorem children_setBalance (n : AVLTrieNode) (x : Int) :
    (n.setBalance x).children = n.children := by cases n; rfl

@[simp] theorem height_setBalance (n : AVLTrieNode) (x : Int) :
    (n.setBalance x).height = n.height := by cases n; rfl

@[simp] theorem isEnd_setBalance (n : AVLTrieNode) (x : Int) :
    (n.setBalance x).is_end_of_word = n.is_end_of_word := by cases n; rfl

@[simp] theorem balance_setBalance (n : AVLTrieNode) (x : Int) :
    (n.setBalance x).balance_factor = x := by cases n; rfl

@[simp] theorem children_setChild (n : AVLTrieNode) (k : List Char) (v : AVLTrieNode) :
    (n.setChild k v).children = setEntries k v n.children := by cases n; rfl

@[simp] theorem height_setChild (n : AVLTrieNode) (k : List Char) (v : AVLTrieNode) :
    (n.setChild k v).height = n.height := by cases n; rfl

@[simp] theorem isEnd_setChild (n : AVLTrieNode) (k : List Char) (v : AVLTrieNode) :
    (n.setChild k v).is_end_of_word = n.is_end_of_word := by cases n; rfl

theorem lookupEntries_mem {k : List Char} {v : AVLTrieNode} :
    ∀ {l : List (List Char × AVLTrieNode)}, lookupEntries k l = some v → (k, v) ∈ l := by
  intro l
  induction l with
  | nil => intro h; simp [lookupEntries] at h
  | cons e t ih =>
      obtain ⟨k', v'⟩ := e
      intro h
      rw [lookupEntries] at h
      by_cases hk : k' = k
      · rw [if_pos hk] at h
        subst hk
        cases h
        exact List.mem_cons_self _ _
      · rw [if_neg hk] at h
        exact List.mem_cons_of_mem _ (ih h)

theorem lookupEntries_none (k : List Char) :
    ∀ (l : List (List Char × AVLTrieNode)), (∀ e ∈ l, e.1.length = 1) →
      k.length ≠ 1 → lookupEntries k l = none := by
  intro l
  induction l with
  | nil => intro _ _; rfl
  | cons e t ih =>
      obtain ⟨k', v'⟩ := e
      intro hl hk
      have hk' : k'.length = 1 := (hl (k', v') (List.mem_cons_self _ _))
      rw [lookupEntries, if_neg (by intro h; rw [h] at hk'; exact hk hk')]
      exact ih (fun e he => hl e (List.mem_cons_of_mem _ he)) hk

theorem mem_setEntries {e : List Char × AVLTrieNode} {k : List Char} {v : AVLTrieNode} :
    ∀ {l : List (List Char × AVLTrieNode)}, e ∈ setEntries k v l → e = (k, v) ∨ e ∈ l := by
  intro l
  induction l with
  | nil => intro h; rw [setEntries] at h; simp at h; exact Or.inl h
  | cons e' t ih =>
      obtain ⟨k', v'⟩ := e'
      intro h
      rw [setEntries] at h
      by_cases hk : k' = k
      · rw [if_pos hk] at h
        rcases List.mem_cons.mp h with h | h
        · exact Or.inl h
        · exact Or.inr (List.mem_cons_of_mem _ h)
      · rw [if_neg hk] at h
        rcases List.mem_cons.mp h with h | h
        · exact Or.inr (h ▸ List.mem_cons_self _ _)
        · rcases ih h with h | h
          · exact Or.inl h
          · exact Or.inr (List.mem_cons_of_mem _ h)

/-- Hereditary well-formedness of the trie as insertion builds it: every
child entry has a single-character key and a subtree whose root node has
height 2, recursively. -/
inductive GoodTree : AVLTrieNode → Prop where
  | mk (n : AVLTrieNode)
      (hk : ∀ e ∈ n.children, e.1.length = 1)
      (hh : ∀ e ∈ n.children, e.2.height = 2)
      (hg : ∀ e ∈ n.children, GoodTree e.2) :
      GoodTree n

theorem GoodTree.entries {n : AVLTrieNode} (hg : GoodTree n) :
    ∀ e ∈ n.children, e.1.length = 1 ∧ e.2.height = 2 ∧ GoodTree e.2 := by
  cases hg with
  | mk _ hk hh hgs => exact fun e he => ⟨hk e he, hh e he, hgs e he⟩

theorem GoodTree.of_entries {n : AVLTrieNode}
    (h : ∀ e ∈ n.children, e.1.length = 1 ∧ e.2.height = 2 ∧ GoodTree e.2) :
    GoodTree n :=
  GoodTree.mk n (fun e he => (h e he).1) (fun e he => (h e he).2.1)
    (fun e he => (h e he).2.2)

theorem GoodTree.of_children_eq {n n' : AVLTrieNode} (hg : GoodTree n)
    (hc : n'.children = n.children) : GoodTree n' :=
  GoodTree.of_entries (by rw [hc]; exact hg.entries)

/-- On any node whose children keys are all single characters (so that the
reserved `_left`/`_right` keys are absent) `_balance_node` only sets the
height to 2 and the balance factor to 0: the rotation branches never run. -/
theorem balance_node_no_reserved (n : AVLTrieNode)
    (hkeys : ∀ e ∈ n.children, e.1.length = 1) :
    balance_node n = (n.setHeight 2).setBalance 0 := by
  have hl : lookupEntries leftKey n.children = none :=
    lookupEntries_none leftKey n.children hkeys (by decide)
  have hr : lookupEntries rightKey n.children = none :=
    lookupEntries_none rightKey n.children hkeys (by decide)
  unfold balance_node update_height update_balance_factor
  simp only [AVLTrieNode.lookupChild, children_setHeight, hl, hr,
    Option.getD_none, AVLTrieNode.get_height, balance_setBalance]
  norm_num [defaultNode, AVLTrieNode.height]

theorem insertLoop_good (doc : String) (pos : Int) (tok : PhenoToken) :
    ∀ (w : List Char) (cur : AVLTrieNode) (alloc : Nat), GoodTree cur →
      GoodTree (insertLoop doc pos tok cur w alloc).1 ∧
      (insertLoop doc pos tok cur w alloc).1.height = cur.height := by
  intro w
  induction w with
  | nil =>
      intro cur alloc hg
      rw [insertLoop]
      exact ⟨hg.of_children_eq (children_markEnd cur doc pos), height_markEnd cur doc pos⟩
  | cons c rest ih =>
      intro cur alloc hg
      have hchild0 : GoodTree ((cur.lookupChild [c]).getD (newNode [c])) := by
        cases hlk : cur.lookupChild [c] with
        | none =>
            rw [Option.getD_none]
            exact GoodTree.of_entries
              (by intro e he; simp [newNode, AVLTrieNode.children] at he)
        | some m =>
            rw [Option.getD_some]
            exact (hg.entries ([c], m) (lookupEntries_mem hlk)).2.2
      have hkeys1 : ∀ e ∈ (((cur.lookupChild [c]).getD (newNode [c])).addWitness
          ⟨TokenType.CHARACTER, some [c], alloc + 1, WitnessState.OBSERVED⟩ tok).children,
          e.1.length = 1 := by
        rw [children_addWitness]
        intro e he
        exact (hchild0.entries e he).1
      rw [insertLoop]
      simp only
      rw [balance_node_no_reserved _ hkeys1]
      have hg2 : GoodTree
          (((((cur.lookupChild [c]).getD (newNode [c])).addWitness
            ⟨TokenType.CHARACTER, some [c], alloc + 1, WitnessState.OBSERVED⟩
            tok).setHeight 2).setBalance 0) := by
        apply hchild0.of_children_eq
        simp
      obtain ⟨hg3, hh3⟩ := ih _ (alloc + 1) hg2
      constructor
      · apply GoodTree.of_entries
        intro e he
        rw [children_setChild] at he
        rcases mem_setEntries he with rfl | hmem
        · refine ⟨by simp, ?_, hg3⟩
          rw [hh3]; simp
        · exact hg.entries e hmem
      · simp

/-- `Desc n m`: `m` is a proper descendant of `n` in the trie (reachable
from `n` through at least one child edge). -/
inductive Desc : AVLTrieNode → AVLTrieNode → Prop where
  | child {n m : AVLTrieNode} (k : List Char) (h : (k, m) ∈ n.children) : Desc n m
  | trans {n c m : AVLTrieNode} (k : List Char) (h : (k, c) ∈ n.children)
      (hd : Desc c m) : Desc n m

theorem desc_height : ∀ {n m : AVLTrieNode}, Desc n m → GoodTree n → m.height = 2 := by
  intro n m hd
  induction hd with
  | child k h => intro hg; exact (hg.entries _ h).2.1
  | trans k h hd ih => intro hg; exact ih ((hg.entries _ h).2.2)

/-- One public operation on a `NexusSearchAVL` instance. -/
inductive Op where
  | ins (word : List Char) (doc_id : String) (position : Int)
  | drainEvents
  | searchB (pattern : List Char) (max_results : Nat)
  | searchD (pattern : List Char) (max_results : Nat)

/-- The state after one operation (searches are read-only). -/
def applyOp (s : NexusState) : Op → NexusState
  | .ins w d p => (insert_word s w d p).2
  | .drainEvents => (process_event_queue s).2
  | .searchB _ _ => s
  | .searchD _ _ => s

/-- The state after a sequence of operations. -/
def runOps (s : NexusState) : List Op → NexusState
  | [] => s
  | op :: ops => runOps (applyOp s op) ops

theorem insert_word_root (s : NexusState) (w : List Char) (d : String) (p : Int)
    (hg : GoodTree s.root) :
    GoodTree (insert_word s w d p).2.root ∧
    (insert_word s w d p).2.root.height = s.root.height := by
  by_cases h : w = []
  · subst h; simp [insert_word]; exact hg
  · unfold insert_word
    rw [if_neg h]
    exact insertLoop_good d p _ w s.root (s.memory_allocator + 1) hg

theorem applyOp_root (s : NexusState) (op : Op) (hg : GoodTree s.root) :
    GoodTree (applyOp s op).root ∧ (applyOp s op).root.height = s.root.height := by
  cases op with
  | ins w d p => exact insert_word_root s w d p hg
  | drainEvents => exact ⟨hg, rfl⟩
  | searchB pat k => exact ⟨hg, rfl⟩
  | searchD pat k => exact ⟨hg, rfl⟩

theorem runOps_root : ∀ (ops : List Op) (s : NexusState), GoodTree s.root →
    GoodTree (runOps s ops).root ∧ (runOps s ops).root.height = s.root.height := by
  intro ops
  induction ops with
  | nil => intro s hg; exact ⟨hg, rfl⟩
  | cons op ops ih =>
      intro s hg
      obtain ⟨hg1, hh1⟩ := applyOp_root s op hg
      obtain ⟨hg2, hh2⟩ := ih (applyOp s op) hg1
      exact ⟨hg2, by rw [runOps, hh2, hh1]⟩

theorem freshIndex_good : GoodTree freshIndex.root :=
  GoodTree.of_entries
    (by intro e he; simp [freshIndex, defaultNode, AVLTrieNode.children] at he)

/-- C4 amended: starting from a fresh index, after any sequence of
operations the root keeps height 1, and every node properly reachable from
the root (in particular every non-root leaf) has height 2 — not 1 as the
claim states. -/
theorem C4_amended (ops : List Op) :
    (runOps freshIndex ops).root.height = 1 ∧
    ∀ m : AVLTrieNode, Desc (runOps freshIndex ops).root m → m.height = 2 := by
  obtain ⟨hg, hh⟩ := runOps_root ops freshIndex freshIndex_good
  exact ⟨by rw [hh]; rfl, fun m hd => desc_height hd hg⟩

theorem C4_amended_witness :
    (runOps freshIndex [Op.ins ['a'] "d" 0]).root.height = 1 ∧
    (((runOps freshIndex [Op.ins ['a'] "d" 0]).root.lookupChild ['a']).getD
        defaultNode).height = 2 :=
  ⟨(C4_amended [Op.ins ['a'] "d" 0]).1,
   (C4_amended [Op.ins ['a'] "d" 0]).2 _ (Desc.child ['a'] (List.Mem.head _))⟩

/-- Shape of the trie built by inserting one word into a node with no
children: a bare path spelling the word, terminal exactly at its end. -/
inductive PathShape : List Char → AVLTrieNode → Prop where
  | last {n : AVLTrieNode} (he : n.is_end_of_word = true) (hc : n.children = []) :
      PathShape [] n
  | cons {c : Char} {rest : List Char} {n m : AVLTrieNode}
      (he : n.is_end_of_word = false) (hc : n.children = [([c], m)])
      (hp : PathShape rest m) : PathShape (c :: rest) n

theorem insertLoop_fresh (doc : String) (pos : Int) (tok : PhenoToken) :
    ∀ (w : List Char) (n : AVLTrieNode) (alloc : Nat),
      n.children = [] → n.is_end_of_word = false →
      PathShape w (insertLoop doc pos tok n w alloc).1 := by
  intro w
  induction w with
  | nil =>
      intro n alloc hc he
      rw [insertLoop]
      exact PathShape.last (isEnd_markEnd n doc pos) (by rw [children_markEnd, hc])
  | cons c rest ih =>
      intro n alloc hc he
      rw [insertLoop]
      simp only
      have hlk : n.lookupChild [c] = none := by
        rw [AVLTrieNode.lookupChild, hc]; rfl
      rw [hlk, Option.getD_none]
      rw [balance_node_no_reserved _
        (by rw [children_addWitness]; intro e he'; simp [newNode, AVLTrieNode.children] at he')]
      refine PathShape.cons ?_ ?_
        (ih ((((newNode [c]).addWitness
            ⟨TokenType.CHARACTER, some [c], alloc + 1, WitnessState.OBSERVED⟩
            tok).setHeight 2).setBalance 0) (alloc + 1) ?_ ?_)
      · rw [isEnd_setChild]; exact he
      · rw [children_setChild, hc]; rfl
      · rfl
      · rfl

theorem childItems_nil (n : AVLTrieNode) (w : List Char) (d : Nat)
    (hc : n.children = []) : childItems n w d = [] := by
  unfold childItems
  rw [hc]
  rfl

theorem childItems_single (n : AVLTrieNode) (c : Char) (m : AVLTrieNode)
    (w : List Char) (d : Nat) (hc : n.children = [([c], m)]) :
    childItems n w d = [(m, w ++ [c], d + 1)] := by
  unfold childItems
  rw [hc]
  simp [leftKey, rightKey]

theorem score_self (w : List Char) (hw : w ≠ []) (d : Nat) :
    calculate_score w w d = 1 := by
  unfold calculate_score
  rw [if_neg (by simp [hw])]
  simp

theorem bfsLoop_path (w : List Char) (hw : w ≠ []) :
    ∀ {rem : List Char} {n : AVLTrieNode}, PathShape rem n →
      ∀ (acc : List Char) (d : Nat), acc ++ rem = w →
        bfsLoop w 1 [(n, acc, d)] [] = [(w, 1)] := by
  intro rem n hp
  induction hp with
  | last he hc =>
      intro acc d hacc
      rw [List.append_nil] at hacc
      subst hacc
      rw [bfsLoop]
      rw [if_neg (by simp)]
      simp only
      rw [if_pos ⟨he, hw⟩, score_self _ hw, if_pos (by norm_num [Rat.mkRat_eq_div])]
      rw [childItems_nil _ _ _ hc]
      simp only [List.nil_append, List.append_nil]
      rw [bfsLoop]
  | cons he hc hp ih =>
      intro acc d hacc
      rw [bfsLoop]
      rw [if_neg (by simp)]
      simp only
      rw [if_neg (by simp [he])]
      rw [childItems_single _ _ _ _ _ hc, List.nil_append]
      exact ih (acc ++ [_]) (d + 1) (by rw [List.append_assoc, List.singleton_append]; exact hacc)

/-- C1: on a fresh index, inserting a non-empty word `w` (any doc id, any
position) and then calling `search_bfs(w, 1)` returns exactly `[(w, 1.0)]`
— in particular the first entry is `(w, 1.0)`. -/
theorem C1_insert_then_bfs (w : List Char) (d : String) (p : Int) (hw : w ≠ []) :
    search_bfs (insert_word freshIndex w d p).2 w 1 = [(w, 1)] := by
  unfold search_bfs
  rw [if_neg hw]
  have hshape : PathShape w (insert_word freshIndex w d p).2.root := by
    unfold insert_word
    rw [if_neg hw]
    exact insertLoop_fresh d p _ w freshIndex.root (freshIndex.memory_allocator + 1) rfl rfl
  rw [bfsLoop_path w hw hshape [] 0 rfl]
  rfl

theorem C1_witness :
    (['a'] : List Char) ≠ [] ∧
    search_bfs (insert_word freshIndex ['a'] "d" 0).2 ['a'] 1 = [(['a'], 1)] :=
  ⟨by decide, C1_insert_then_bfs ['a'] "d" 0 (by decide)⟩

/-- The index state of the C2 scenario: a fresh index after inserting
"apple", "application", "apply" with doc ids d0, d1, d2 at position 0. -/
def c2State : NexusState :=
  (insert_word (insert_word (insert_word freshIndex
    "apple".toList "d0" 0).2 "application".toList "d1" 0).2 "apply".toList "d2" 0).2

/-- C2: in the scenario above, `search_dfs("app", 3)` returns exactly 3
entries, every entry's word starts with "app", and the entries are sorted
by descending (non-increasing) score. -/
theorem C2_dfs_scenario :
    (search_dfs c2State "app".toList 3).length = 3 ∧
    ((search_dfs c2State "app".toList 3).all
      (fun e => startsWith e.1 "app".toList)) = true ∧
    List.Chain' (fun a b : List Char × ℚ => b.2 ≤ a.2)
      (search_dfs c2State "app".toList 3) := by
  have heval : search_dfs c2State "app".toList 3
      = [("apple".toList, mkRat 9 10), ("application".toList, mkRat 9 10),
         ("apply".toList, mkRat 9 10)] := by decide
  refine ⟨by rw [heval]; rfl, by decide, ?_⟩
  rw [heval]
  exact List.chain'_cons.mpr ⟨by decide,
    List.chain'_cons.mpr ⟨by decide, List.chain'_singleton _⟩⟩

/-- The values returned by the `allocate_memory_index` calls made inside
the character loop of `insert_word`: one per character, in order. -/
def insertSlotsLoop : List Char → Nat → List Nat
  | [], _ => []
  | _ :: rest, alloc => (alloc + 1) :: insertSlotsLoop rest (alloc + 1)

/-- The memory slots issued by the allocator during one operation, in
issue order: a non-empty `insert` issues the word-token slot, one slot per
character token, and the event timestamp; no other operation (nor the
empty-word insert) calls the allocator. -/
def opSlots (s : NexusState) : Op → List Nat
  | .ins w d p =>
      if w = [] then []
      else
        (s.memory_allocator + 1) ::
          (insertSlotsLoop w (s.memory_allocator + 1) ++
            [(insertLoop d p ⟨TokenType.WORD, some w, s.memory_allocator + 1,
                WitnessState.OBSERVED⟩ s.root w (s.memory_allocator + 1)).2 + 1])
  | _ => []

/-- All memory slots issued across a sequence of operations, in order. -/
def traceSlots (s : NexusState) : List Op → List Nat
  | [] => []
  | op :: ops => opSlots s op ++ traceSlots (applyOp s op) ops

theorem insertLoop_alloc (d : String) (p : Int) (tok : PhenoToken) :
    ∀ (w : List Char) (cur : AVLTrieNode) (alloc : Nat),
      (insertLoop d p tok cur w alloc).2 = alloc + w.length := by
  intro w
  induction w with
  | nil => intro cur alloc; rw [insertLoop]; rfl
  | cons c rest ih =>
      intro cur alloc
      rw [insertLoop]
      simp only
      rw [ih]
      simp only [List.length_cons]
      omega

theorem insertSlotsLoop_eq : ∀ (w : List Char) (a : Nat),
    insertSlotsLoop w a = List.range' (a + 1) w.length := by
  intro w
  induction w with
  | nil => intro a; rfl
  | cons c rest ih =>
      intro a
      rw [insertSlotsLoop, ih, List.length_cons, List.range'_succ]

theorem insert_word_alloc (s : NexusState) (w : List Char) (d : String) (p : Int)
    (hw : w ≠ []) :
    (insert_word s w d p).2.memory_allocator = s.memory_allocator + w.length + 2 := by
  unfold insert_word
  rw [if_neg hw]
  simp only
  rw [insertLoop_alloc]
  omega

theorem opSlots_ins (s : NexusState) (w : List Char) (d : String) (p : Int)
    (hw : w ≠ []) :
    opSlots s (Op.ins w d p) = List.range' (s.memory_allocator + 1) (w.length + 2) := by
  simp only [opSlots]
  rw [if_neg hw, insertLoop_alloc, insertSlotsLoop_eq]
  rw [show w.length + 2 = (w.length + 1) + 1 from rfl, List.range'_concat,
    List.range'_succ]
  simp only [List.cons_append, List.nil_append, List.cons.injEq, true_and]
  have hx : s.memory_allocator + 1 + w.length + 1
      = s.memory_allocator + 1 + 1 * (w.length + 1) := by ring
  rw [hx]

theorem opSlots_range (s : NexusState) (op : Op) :
    ∃ k, opSlots s op = List.range' (s.memory_allocator + 1) k ∧
         (applyOp s op).memory_allocator = s.memory_allocator + k := by
  cases op with
  | ins w d p =>
      by_cases hw : w = []
      · subst hw
        exact ⟨0, by rw [opSlots, if_pos rfl]; rfl, by simp [applyOp, insert_word]⟩
      · exact ⟨w.length + 2, opSlots_ins s w d p hw,
          by rw [show (applyOp s (Op.ins w d p)).memory_allocator
              = (insert_word s w d p).2.memory_allocator from rfl,
            insert_word_alloc s w d p hw]; omega⟩
  | drainEvents => exact ⟨0, rfl, rfl⟩
  | searchB pat k => exact ⟨0, rfl, rfl⟩
  | searchD pat k => exact ⟨0, rfl, rfl⟩

theorem traceSlots_facts : ∀ (ops : List Op) (s : NexusState),
    List.Pairwise (· < ·) (traceSlots s ops) ∧
    ∀ x ∈ traceSlots s ops, s.memory_allocator < x := by
  intro ops
  induction ops with
  | nil => intro s; exact ⟨List.Pairwise.nil, by intro x hx; simp [traceSlots] at hx⟩
  | cons op ops ih =>
      intro s
      obtain ⟨k, hop, halloc⟩ := opSlots_range s op
      obtain ⟨hp, hb⟩ := ih (applyOp s op)
      rw [traceSlots, hop]
      constructor
      · rw [List.pairwise_append]
        refine ⟨List.pairwise_lt_range' _ _, hp, ?_⟩
        intro x hx y hy
        rw [List.mem_range'_1] at hx
        have hy' := hb y hy
        rw [halloc] at hy'
        omega
      · intro x hx
        rcases List.mem_append.mp hx with hx | hx
        · rw [List.mem_range'_1] at hx; omega
        · have := hb x hx; rw [halloc] at this; omega

/-- C8: the sequence of memory slots issued by one index's allocator
across any sequence of operations is strictly increasing, with no
repeated value. -/
theorem C8_alloc_strict_mono (ops : List Op) :
    List.Pairwise (· < ·) (traceSlots freshIndex ops) ∧
    (traceSlots freshIndex ops).Nodup :=
  ⟨(traceSlots_facts ops freshIndex).1,
   (traceSlots_facts ops freshIndex).1.imp (fun hlt => Nat.ne_of_lt hlt)⟩

/-- `KeyPath n w t`: starting at `n` and following child edges whose keys
concatenate to `w` reaches the node `t`. -/
inductive KeyPath : AVLTrieNode → List Char → AVLTrieNode → Prop where
  | refl (n : AVLTrieNode) : KeyPath n [] n
  | step {n m t : AVLTrieNode} {k w : List Char} (h : (k, m) ∈ n.children)
      (hp : KeyPath m w t) : KeyPath n (k ++ w) t

theorem KeyPath.snoc {n t m : AVLTrieNode} {w k : List Char}
    (hp : KeyPath n w t) (h : (k, m) ∈ t.children) : KeyPath n (w ++ k) m := by
  induction hp with
  | refl n =>
      have hstep := KeyPath.step h (KeyPath.refl m)
      rw [List.append_nil] at hstep
      rw [List.nil_append]
      exact hstep
  | step h' hp' ih =>
      rw [List.append_assoc]
      exact KeyPath.step h' (ih h)

/-- A word is sound for a trie root if it is non-empty and spelled by a
path from the root to an end-of-word node. -/
def SoundWord (root : AVLTrieNode) (w : List Char) : Prop :=
  ∃ t, KeyPath root w t ∧ t.is_end_of_word = true ∧ w ≠ []

theorem bfsLoop_sound (pattern : List Char) (max_results : Nat) (root : AVLTrieNode) :
    ∀ (queue : List (AVLTrieNode × List Char × Nat)) (results : List (List Char × ℚ)),
      (∀ q ∈ queue, KeyPath root q.2.1 q.1) →
      (∀ r ∈ results, SoundWord root r.1) →
      ∀ r ∈ bfsLoop pattern max_results queue results, SoundWord root r.1 := by
  intro queue results
  induction queue, results using bfsLoop.induct pattern max_results with
  | case1 results =>
      intro _ hres r hr
      rw [bfsLoop] at hr
      exact hres r hr
  | case2 node current_word depth rest results hle =>
      intro _ hres r hr
      rw [bfsLoop, if_pos hle] at hr
      exact hres r hr
  | case3 node current_word depth rest results hle results' ih =>
      intro hq hres r hr
      rw [bfsLoop, if_neg hle] at hr
      have hkp : KeyPath root current_word node := hq (node, current_word, depth) (List.mem_cons_self _ _)
      apply ih ?_ ?_ r hr
      · intro q hqmem
        rcases List.mem_append.mp hqmem with hm | hm
        · exact hq q (List.mem_cons_of_mem _ hm)
        · unfold childItems at hm
          rcases List.mem_map.mp hm with ⟨e, hef, heq⟩
          obtain ⟨k, child⟩ := e
          have hmem : (k, child) ∈ node.children := (List.mem_filter.mp hef).1
          subst heq
          exact KeyPath.snoc hkp hmem
      · intro r' hr'
        have hdef : results' =
            (if node.is_end_of_word = true ∧ current_word ≠ [] then
              if mkRat 3 10 < calculate_score pattern current_word depth then
                results ++ [(current_word, calculate_score pattern current_word depth)]
              else results
            else results) := rfl
        rw [hdef] at hr'
        by_cases hcond : node.is_end_of_word = true ∧ current_word ≠ []
        · rw [if_pos hcond] at hr'
          by_cases hsc : mkRat 3 10 < calculate_score pattern current_word depth
          · rw [if_pos hsc] at hr'
            rcases List.mem_append.mp hr' with hm | hm
            · exact hres r' hm
            · rw [List.mem_singleton] at hm
              subst hm
              exact ⟨node, hkp, hcond.1, hcond.2⟩
          · rw [if_neg hsc] at hr'
            exact hres r' hr'
        · rw [if_neg hcond] at hr'
          exact hres r' hr'

theorem dfs_sound_all (pattern : List Char) (max_results : Nat) (root : AVLTrieNode) :
    (∀ (node : AVLTrieNode) (w : List Char) (d : Nat) (results : List (List Char × ℚ)),
       KeyPath root w node →
       (∀ r ∈ results, SoundWord root r.1) →
       ∀ r ∈ dfsHelper pattern max_results node w d results, SoundWord root r.1) ∧
    (∀ (entries : List (List Char × AVLTrieNode)) (w : List Char) (d : Nat)
        (results : List (List Char × ℚ)),
       (∀ e ∈ entries, KeyPath root (w ++ e.1) e.2) →
       (∀ r ∈ results, SoundWord root r.1) →
       ∀ r ∈ dfsChildren pattern max_results entries w d results, SoundWord root r.1) := by
  refine dfsHelper.mutual_induct pattern max_results ?_ ?_ ?c1 ?c2 ?c3 ?c4 ?c5
  case c1 =>
    intro c ch e hh b wp ws dr current_word depth results hle hkp hres r hr
    rw [dfsHelper, if_pos hle] at hr
    exact hres r hr
  case c2 =>
    intro c ch e hh b wp ws dr current_word depth results hle results' ih hkp hres r hr
    rw [dfsHelper, if_neg hle] at hr
    apply ih ?_ ?_ r hr
    · intro e' he'
      obtain ⟨k', child'⟩ := e'
      exact KeyPath.snoc hkp he'
    · intro r' hr'
      have hdef : results' =
          (if e = true ∧ current_word ≠ [] then
            if mkRat 3 10 < calculate_score pattern current_word depth then
              results ++ [(current_word, calculate_score pattern current_word depth)]
            else results
          else results) := rfl
      rw [hdef] at hr'
      by_cases hcond : e = true ∧ current_word ≠ []
      · rw [if_pos hcond] at hr'
        by_cases hsc : mkRat 3 10 < calculate_score pattern current_word depth
        · rw [if_pos hsc] at hr'
          rcases List.mem_append.mp hr' with hm | hm
          · exact hres r' hm
          · rw [List.mem_singleton] at hm
            subst hm
            exact ⟨AVLTrieNode.mk c ch e hh b wp ws dr, hkp, hcond.1, hcond.2⟩
        · rw [if_neg hsc] at hr'
          exact hres r' hr'
      · rw [if_neg hcond] at hr'
        exact hres r' hr'
  case c3 =>
    intro w d results _ hres r hr
    rw [dfsChildren] at hr
    exact hres r hr
  case c4 =>
    intro k child rest current_word depth results hkres ih hkp hres r hr
    rw [dfsChildren, if_pos hkres] at hr
    exact ih (fun e he => hkp e (List.mem_cons_of_mem _ he)) hres r hr
  case c5 =>
    intro k child rest current_word depth results hkres ih1 ih2 hkp hres r hr
    rw [dfsChildren, if_neg hkres] at hr
    apply ih2 (fun e he => hkp e (List.mem_cons_of_mem _ he)) ?_ r hr
    exact ih1 (hkp (k, child) (List.mem_cons_self _ _)) hres

theorem keyPath_transfer {n n' t : AVLTrieNode} {p : List Char}
    (hc : n'.children = n.children) (he : n'.is_end_of_word = n.is_end_of_word)
    (hp : KeyPath n p t) (ht : t.is_end_of_word = true) :
    ∃ t', KeyPath n' p t' ∧ t'.is_end_of_word = true := by
  cases hp with
  | refl => exact ⟨n', KeyPath.refl n', he.trans ht⟩
  | step h hp2 =>
      rw [← hc] at h
      exact ⟨t, KeyPath.step h hp2, ht⟩

theorem insertLoop_paths (doc : String) (pos : Int) (tok : PhenoToken) :
    ∀ (w : List Char) (cur : AVLTrieNode) (alloc : Nat), GoodTree cur →
      ∀ (p : List Char) (t : AVLTrieNode),
        KeyPath (insertLoop doc pos tok cur w alloc).1 p t →
        t.is_end_of_word = true →
        (∃ t₀, KeyPath cur p t₀ ∧ t₀.is_end_of_word = true) ∨ p = w := by
  intro w
  induction w with
  | nil =>
      intro cur alloc hg p t hp ht
      rw [insertLoop] at hp
      cases hp with
      | refl => exact Or.inr rfl
      | step h hp' =>
          rw [children_markEnd] at h
          exact Or.inl ⟨t, KeyPath.step h hp', ht⟩
  | cons c rest ih =>
      intro cur alloc hg p t hp ht
      have hchild0 : GoodTree ((cur.lookupChild [c]).getD (newNode [c])) := by
        cases hlk : cur.lookupChild [c] with
        | none =>
            rw [Option.getD_none]
            exact GoodTree.of_entries
              (by intro e he; simp [newNode, AVLTrieNode.children] at he)
        | some m =>
            rw [Option.getD_some]
            exact (hg.entries ([c], m) (lookupEntries_mem hlk)).2.2
      have hkeys1 : ∀ e ∈ (((cur.lookupChild [c]).getD (newNode [c])).addWitness
          ⟨TokenType.CHARACTER, some [c], alloc + 1, WitnessState.OBSERVED⟩ tok).children,
          e.1.length = 1 := by
        rw [children_addWitness]
        intro e he
        exact (hchild0.entries e he).1
      rw [insertLoop] at hp
      simp only at hp
      rw [balance_node_no_reserved _ hkeys1] at hp
      cases hp with
      | refl =>
          rw [isEnd_setChild] at ht
          exact Or.inl ⟨cur, KeyPath.refl cur, ht⟩
      | step h hp' =>
          rw [children_setChild] at h
          rcases mem_setEntries h with heq | hmem
          · rw [Prod.mk.injEq] at heq
            obtain ⟨hk, hm⟩ := heq
            subst hk
            subst hm
            have hg2 : GoodTree (((((cur.lookupChild [c]).getD (newNode [c])).addWitness
                ⟨TokenType.CHARACTER, some [c], alloc + 1, WitnessState.OBSERVED⟩
                tok).setHeight 2).setBalance 0) := hchild0.of_children_eq (by simp)
            rcases ih _ (alloc + 1) hg2 _ t hp' ht with ⟨t₀, hp0, ht0⟩ | hrest
            · obtain ⟨t', hpt', htt'⟩ := @keyPath_transfer _
                ((cur.lookupChild [c]).getD (newNode [c])) _ _
                (by simp) (by simp) hp0 ht0
              cases hlk : cur.lookupChild [c] with
              | some m0 =>
                  rw [hlk, Option.getD_some] at hpt'
                  exact Or.inl ⟨t', KeyPath.step (lookupEntries_mem hlk) hpt', htt'⟩
              | none =>
                  rw [hlk, Option.getD_none] at hpt'
                  exfalso
                  cases hpt' with
                  | refl => simp [newNode, AVLTrieNode.is_end_of_word] at htt'
                  | step hmem0 _ => simp [newNode, AVLTrieNode.children] at hmem0
            · subst hrest
              exact Or.inr rfl
          · exact Or.inl ⟨t, KeyPath.step hmem hp', ht⟩

/-- `TermWords root ws`: every word spelled by a path from `root` to an
end-of-word node is in `ws`. -/
def TermWords (root : AVLTrieNode) (ws : List (List Char)) : Prop :=
  ∀ (q : List Char) (t : AVLTrieNode),
    KeyPath root q t → t.is_end_of_word = true → q ∈ ws

theorem termWords_mono {root : AVLTrieNode} {ws ws' : List (List Char)}
    (h : TermWords root ws) (hsub : ∀ x ∈ ws, x ∈ ws') : TermWords root ws' :=
  fun q t hp ht => hsub q (h q t hp ht)

theorem insert_word_paths (s : NexusState) (w : List Char) (d : String) (p : Int)
    (hw : w ≠ []) (hg : GoodTree s.root) :
    ∀ (q : List Char) (t : AVLTrieNode),
      KeyPath (insert_word s w d p).2.root q t → t.is_end_of_word = true →
      (∃ t₀, KeyPath s.root q t₀ ∧ t₀.is_end_of_word = true) ∨ q = w := by
  unfold insert_word
  rw [if_neg hw]
  intro q t hp ht
  exact insertLoop_paths d p _ w s.root _ hg q t hp ht

/-- The non-empty words passed to `insert` in an operation sequence. -/
def insertedWords : List Op → List (List Char)
  | [] => []
  | Op.ins w _ _ :: ops => if w = [] then insertedWords ops else w :: insertedWords ops
  | Op.drainEvents :: ops => insertedWords ops
  | Op.searchB _ _ :: ops => insertedWords ops
  | Op.searchD _ _ :: ops => insertedWords ops

theorem runOps_termWords : ∀ (ops : List Op) (s : NexusState) (ws : List (List Char)),
    GoodTree s.root → TermWords s.root ws →
    TermWords (runOps s ops).root (insertedWords ops ++ ws) := by
  intro ops
  induction ops with
  | nil =>
      intro s ws _ hterm
      exact termWords_mono hterm
        (by intro x hx; rw [insertedWords, List.nil_append]; exact hx)
  | cons op ops ih =>
      intro s ws hg hterm
      rw [runOps]
      cases op with
      | ins w d p =>
          by_cases hw : w = []
          · subst hw
            have happ : applyOp s (Op.ins [] d p) = s := rfl
            rw [happ, insertedWords, if_pos rfl]
            exact ih s ws hg hterm
          · have h1 : TermWords (applyOp s (Op.ins w d p)).root (w :: ws) := by
              intro q t hp ht
              rcases insert_word_paths s w d p hw hg q t hp ht with ⟨t₀, h0, ht0⟩ | hq
              · exact List.mem_cons_of_mem _ (hterm q t₀ h0 ht0)
              · exact hq ▸ List.mem_cons_self _ _
            have hg1 : GoodTree (applyOp s (Op.ins w d p)).root :=
              (insert_word_root s w d p hg).1
            have h2 := ih (applyOp s (Op.ins w d p)) (w :: ws) hg1 h1
            rw [insertedWords, if_neg hw]
            apply termWords_mono h2
            intro x hx
            simp only [List.mem_append, List.mem_cons] at hx ⊢
            tauto
      | drainEvents =>
          have happ : (applyOp s Op.drainEvents).root = s.root := rfl
          rw [insertedWords]
          exact ih (applyOp s Op.drainEvents) ws (by rw [happ]; exact hg)
            (by intro q t hp ht; rw [happ] at hp; exact hterm q t hp ht)
      | searchB pat k =>
          rw [insertedWords]
          exact ih s ws hg hterm
      | searchD pat k =>
          rw [insertedWords]
          exact ih s ws hg hterm

theorem runOps_sound_words (ops : List Op) :
    TermWords (runOps freshIndex ops).root (insertedWords ops) := by
  have h0 : TermWords freshIndex.root [] := by
    intro q t hp ht
    cases hp with
    | refl => simp [freshIndex, defaultNode, AVLTrieNode.is_end_of_word] at ht
    | step h _ => simp [freshIndex, defaultNode, AVLTrieNode.children] at h
  have h := runOps_termWords ops freshIndex [] freshIndex_good h0
  rw [List.append_nil] at h
  exact h

theorem search_bfs_sound (s : NexusState) (pattern : List Char) (k : Nat)
    (r : List Char × ℚ) (hr : r ∈ search_bfs s pattern k) : SoundWord s.root r.1 := by
  unfold search_bfs at hr
  by_cases hp : pattern = []
  · rw [if_pos hp] at hr; simp at hr
  · rw [if_neg hp] at hr
    unfold sortResults at hr
    rw [(List.perm_insertionSort _ _).mem_iff] at hr
    refine bfsLoop_sound pattern k s.root [(s.root, [], 0)] [] ?_ ?_ r hr
    · intro q hq
      rw [List.mem_singleton] at hq
      subst hq
      exact KeyPath.refl _
    · intro r' hr'
      simp at hr'

theorem search_dfs_sound (s : NexusState) (pattern : List Char) (k : Nat)
    (r : List Char × ℚ) (hr : r ∈ search_dfs s pattern k) : SoundWord s.root r.1 := by
  unfold search_dfs at hr
  by_cases hp : pattern = []
  · rw [if_pos hp] at hr; simp at hr
  · rw [if_neg hp] at hr
    unfold sortResults at hr
    rw [(List.perm_insertionSort _ _).mem_iff] at hr
    exact (dfs_sound_all pattern k s.root).1 s.root [] 0 []
      (KeyPath.refl _) (by intro r' hr'; simp at hr') r hr

/-- C10: search soundness — every `(word, score)` pair returned by either
search entry point on an index reached from a fresh index by any sequence
of operations has a word equal to some non-empty word previously passed to
`insert` on that index. -/
theorem C10_search_soundness (ops : List Op) (pattern : List Char) (k : Nat)
    (w : List Char) (sc : ℚ)
    (h : (w, sc) ∈ search_bfs (runOps freshIndex ops) pattern k ∨
         (w, sc) ∈ search_dfs (runOps freshIndex ops) pattern k) :
    w ∈ insertedWords ops := by
  have hs : SoundWord (runOps freshIndex ops).root w := by
    rcases h with h | h
    · exact search_bfs_sound _ _ _ _ h
    · exact search_dfs_sound _ _ _ _ h
  obtain ⟨t, hpath, ht, hne⟩ := hs
  exact runOps_sound_words ops w t hpath ht

theorem C10_witness :
    ((['a'], (1 : ℚ)) ∈ search_bfs (runOps freshIndex [Op.ins ['a'] "d" 0]) ['a'] 1 ∨
     (['a'], (1 : ℚ)) ∈ search_dfs (runOps freshIndex [Op.ins ['a'] "d" 0]) ['a'] 1) ∧
    ['a'] ∈ insertedWords [Op.ins ['a'] "d" 0] :=
  ⟨Or.inr (by decide),
   C10_search_soundness [Op.ins ['a'] "d" 0] ['a'] 1 ['a'] 1 (Or.inr (by decide))⟩
